import Mathlib

/-!
# Verification of the beam animation core (`src/animator.rs`)

Shallow embedding of the timeline-resolution and frame-synthesis engine.

Modelling conventions:
* Rust `f64` is modelled by `ℚ`; every numeric value appearing in the
  properties under test is exactly representable, and no claim depends on
  floating-point rounding.
* Rust `std::time::Duration` is modelled by `ℚ` (seconds); all duration
  arithmetic reachable in the resolver stays non-negative, where Rust's
  `Duration` arithmetic agrees with rational arithmetic.
* A Rust `&str` is modelled as its list of Unicode scalar values
  (`List Char`) together with an explicit UTF-8 byte-length function, so
  that byte-indexed slicing (`&hex[0..2]`), which panics off a character
  boundary, is modelled faithfully by an `Option`.
* A Rust panic (`expect`, out-of-boundary slice) is modelled by `none`.
-/

namespace Beam

/-- Rust `&str`, as its list of Unicode scalar values. -/
abbrev Str := List Char

/-- Number of bytes of the UTF-8 encoding of one scalar value. -/
def utf8Size (c : Char) : Nat :=
  if c.toNat < 0x80 then 1
  else if c.toNat < 0x800 then 2
  else if c.toNat < 0x10000 then 3
  else 4

/-- Rust `str::len`: the length in bytes of the UTF-8 encoding. -/
def byteLen (s : Str) : Nat := (s.map utf8Size).sum

/-- Drop the characters occupying the first `n` bytes; `none` when `n` is
not a character boundary (Rust slicing would panic there). -/
def dropBytes : Str → Nat → Option Str
  | s, 0 => some s
  | [], _ + 1 => none
  | c :: s, n + 1 =>
      if utf8Size c ≤ n + 1 then dropBytes s (n + 1 - utf8Size c) else none

/-- Take the characters occupying the first `n` bytes; `none` when `n` is
not a character boundary. -/
def takeBytes : Str → Nat → Option Str
  | _, 0 => some []
  | [], _ + 1 => none
  | c :: s, n + 1 =>
      if utf8Size c ≤ n + 1 then
        (takeBytes s (n + 1 - utf8Size c)).map (fun t => c :: t)
      else none

/-- Rust `&s[a..b]`: both `a` and `b` must be character boundaries and
`a ≤ b ≤ s.len()`, otherwise the program panics (`none`). -/
def sliceBytes (s : Str) (a b : Nat) : Option Str :=
  if a ≤ b then (dropBytes s a).bind (fun t => takeBytes t (b - a)) else none

/-- Value of one hexadecimal digit (Rust `char::to_digit(16)`). -/
def hexDigitVal (c : Char) : Option Nat :=
  if '0' ≤ c ∧ c ≤ '9' then some (c.toNat - '0'.toNat)
  else if 'a' ≤ c ∧ c ≤ 'f' then some (c.toNat - 'a'.toNat + 10)
  else if 'A' ≤ c ∧ c ≤ 'F' then some (c.toNat - 'A'.toNat + 10)
  else none

/-- Digit loop of `u8::from_str_radix(_, 16)`: checked accumulation, an
out-of-range (`> 255`) intermediate value is an overflow error. -/
def hexDigitsVal : Str → Nat → Option Nat
  | [], acc => some acc
  | c :: s, acc =>
      match hexDigitVal c with
      | none => none
      | some d => if acc * 16 + d ≤ 255 then hexDigitsVal s (acc * 16 + d) else none

/-- Rust `u8::from_str_radix(s, 16)`: an optional leading `+` (no `-` for
an unsigned type), then at least one hexadecimal digit, value at most 255. -/
def fromStrRadix16U8 (s : Str) : Option Nat :=
  match s with
  | [] => none
  | c :: rest =>
      if c = '+' then
        if rest = [] then none else hexDigitsVal rest 0
      else hexDigitsVal (c :: rest) 0

/-- Decoding of the stripped body of `hex_to_rgb`: a 6-byte body is
byte-sliced into three 2-byte groups, each parsed with fallback 0; any
other byte length yields rgb 0, 0, 0. `none` models the byte-slice panic
on a non-boundary offset. -/
def hexBody_to_rgb (hex : Str) : Option (Nat × Nat × Nat) :=
  if byteLen hex = 6 then
    match sliceBytes hex 0 2, sliceBytes hex 2 4, sliceBytes hex 4 6 with
    | some g1, some g2, some g3 =>
        some ((fromStrRadix16U8 g1).getD 0, (fromStrRadix16U8 g2).getD 0,
              (fromStrRadix16U8 g3).getD 0)
    | _, _, _ => none
  else some (0, 0, 0)

/-- Rust `hex_to_rgb`. Strips every leading `#`
(`trim_start_matches('#')`), then decodes the body. -/
def hex_to_rgb (hex0 : Str) : Option (Nat × Nat × Nat) :=
  hexBody_to_rgb (hex0.dropWhile (fun c => c == '#'))

/-- One lowercase hexadecimal digit character. -/
def hexChar (n : Nat) : Char :=
  if n < 10 then Char.ofNat ('0'.toNat + n) else Char.ofNat ('a'.toNat + n - 10)

/-- Rust `format!("{:02x}", n)` for `n ≤ 255`: two lowercase hex digits. -/
def byteToHex (n : Nat) : Str := [hexChar (n / 16), hexChar (n % 16)]

/-- Rust `x as u8` on an `f64`: truncate toward zero, saturating at the
bounds of `u8`. -/
def f64ToU8 (x : ℚ) : Nat :=
  if x < 0 then 0 else min 255 (Int.toNat ⌊x⌋)

/-- `ast.rs` `Value`. -/
inductive Value where
  | String : Str → Value
  | Number : ℚ → Value
  | Color : Str → Value
  | Tuple : ℚ → ℚ → Value
deriving DecidableEq, Repr

/-- Rust `lerp` (`animator.rs`). `none` models a panic inside
`hex_to_rgb` (non-boundary byte slice of a color string). -/
def lerp (vs ve : Value) (factor : ℚ) : Option Value :=
  match vs, ve with
  | .Number s, .Number e => some (.Number (s + (e - s) * factor))
  | .Tuple sx sy, .Tuple ex ey =>
      some (.Tuple (sx + (ex - sx) * factor) (sy + (ey - sy) * factor))
  | .Color sHex, .Color eHex =>
      match hex_to_rgb sHex, hex_to_rgb eHex with
      | some (sr, sg, sb), some (er, eg, eb) =>
          some (.Color ('#' ::
            (byteToHex (f64ToU8 ((sr : ℚ) + ((er : ℚ) - (sr : ℚ)) * factor)) ++
             byteToHex (f64ToU8 ((sg : ℚ) + ((eg : ℚ) - (sg : ℚ)) * factor)) ++
             byteToHex (f64ToU8 ((sb : ℚ) + ((eb : ℚ) - (sb : ℚ)) * factor)))))
      | _, _ => none
  | _, _ => some ve

/-- Rust `apply_easing` (`animator.rs`). -/
def apply_easing (t : ℚ) (easing_type : Str) : ℚ :=
  if easing_type = "ease_in".toList then t * t
  else if easing_type = "ease_out".toList then t * (2 - t)
  else if easing_type = "ease_in_out".toList then
    if t < 1/2 then 2 * t * t else -1 + (4 - 2 * t) * t
  else t

/-- `ast.rs` `Property`. -/
structure Property where
  name : Str
  value : Value
deriving DecidableEq, Repr

/-- `ast.rs` `Object` (`r#type` is `type`). -/
structure Object where
  type : Str
  name : Str
  properties : List Property
deriving DecidableEq, Repr

/-- `ast.rs` `Animation`; times in seconds. -/
structure Animation where
  start : ℚ
  «end» : Option ℚ
  target_object : Str
  property : Str
  «to» : Value
  easing : Option Str
deriving DecidableEq, Repr

/-- `ast.rs` `Timeline`. -/
structure Timeline where
  animations : List Animation
deriving DecidableEq, Repr

/-- `ast.rs` `Scene`; the duration in seconds. -/
structure Scene where
  name : Str
  items : List Object
  timeline : Option Timeline
  duration : Option ℚ
deriving DecidableEq, Repr

/-- Stable insertion of one animation into a start-sorted list: placed
before the first strictly later start, after any equal start. -/
def insertByStart (a : Animation) : List Animation → List Animation
  | [] => [a]
  | b :: l => if b.start < a.start then b :: insertByStart a l else a :: b :: l

/-- Rust `sort_by_key(|a| a.start)`: a stable sort by start time. -/
def sortByStart (l : List Animation) : List Animation :=
  l.foldr insertByStart []

/-- Value of the first property of the given name (`find` on the
property list). -/
def lookupPropInProps : List Property → Str → Option Value
  | [], _ => none
  | pr :: rest, p => if pr.name = p then some pr.value else lookupPropInProps rest p

/-- Base-value lookup (`animator.rs` lines 189–194): first object of the
given name, then its first property of the given name. -/
def lookupProp : List Object → Str → Str → Option Value
  | [], _, _ => none
  | obj :: rest, o, p =>
      if obj.name = o then lookupPropInProps obj.properties p
      else lookupProp rest o p

/-- Update the first property of the given name (`iter_mut().find`). -/
def setPropInProps (props : List Property) (p : Str) (v : Value) : List Property :=
  match props with
  | [] => []
  | pr :: rest =>
      if pr.name = p then { pr with value := v } :: rest
      else pr :: setPropInProps rest p v

/-- Write-back of the resolved value (`animator.rs` lines 236–241): the
first object of the given name has its first property of the given name
updated; absent targets leave the list unchanged. -/
def setProp (items : List Object) (o p : Str) (v : Value) : List Object :=
  match items with
  | [] => []
  | obj :: rest =>
      if obj.name = o then
        { obj with properties := setPropInProps obj.properties p v } :: rest
      else obj :: setProp rest o p v

/-- The interpolation factor of an active ranged animation
(`animator.rs` lines 211–215): elapsed over duration, `1` when the
duration is not positive (zero-duration range, avoids division by zero). -/
def interpFactor (current_time s e : ℚ) : ℚ :=
  if 0 < e - s then (current_time - s) / (e - s) else 1

/-- The eased factor of an active ranged animation
(`animator.rs` lines 217–219): easing is applied once, to the factor. -/
def easedFactor (current_time s e : ℚ) (easing : Option Str) : ℚ :=
  match easing with
  | some kind => apply_easing (interpFactor current_time s e) kind
  | none => interpFactor current_time s e

/-- The chronological walk over one pair's start-sorted animations
(`animator.rs` lines 200–233), seeded with the base value:
a future animation stops the walk; an active ranged animation
interpolates from the chained value and is final; a finished or
instantaneous animation replaces the chained value and the walk goes on.
`none` models a panic inside `lerp`. -/
def walkAnims (current_time : ℚ) : Value → List Animation → Option Value
  | v, [] => some v
  | v, anim :: rest =>
      if anim.start ≤ current_time then
        match anim.«end» with
        | some e =>
            if current_time < e then
              lerp v anim.«to» (easedFactor current_time anim.start e anim.easing)
            else walkAnims current_time anim.«to» rest
        | none => walkAnims current_time anim.«to» rest
      else some v

/-- Removal of duplicate keys (one entry per distinct key, as in the
source's `HashMap`). -/
def dedupKeys : List (Str × Str) → List (Str × Str)
  | [] => []
  | k :: rest =>
      if k ∈ dedupKeys rest then dedupKeys rest else k :: dedupKeys rest

/-- The distinct (object, property) pairs targeted by a timeline
(`animator.rs` lines 173–176; a `HashMap` keyed by the pair). -/
def animTargets (tl : Timeline) : List (Str × Str) :=
  dedupKeys (tl.animations.map (fun a => (a.target_object, a.property)))

/-- The start-sorted animations of a timeline targeting one pair
(`animator.rs` lines 181–186). -/
def relevantAnims (tl : Timeline) (key : Str × Str) : List Animation :=
  sortByStart (tl.animations.filter
    (fun a => decide (a.target_object = key.1 ∧ a.property = key.2)))

/-- Resolution of one (object, property) pair at one time
(`animator.rs` lines 178–241): filter and sort the pair's animations,
seed with the base value (`none` models the `expect` panic when the
object or property is absent), walk, write the result back. -/
def resolveKey (items : List Object) (tl : Timeline) (current_time : ℚ)
    (key : Str × Str) : Option (List Object) :=
  match lookupProp items key.1 key.2 with
  | none => none
  | some initial =>
      (walkAnims current_time initial (relevantAnims tl key)).map
        (setProp items key.1 key.2)

/-- Sequential resolution of every targeted pair; the write sets of
distinct pairs are disjoint, so the arbitrary `HashMap` iteration order
of the source is modelled by a fixed order without loss. -/
def applyKeys (tl : Timeline) (current_time : ℚ) :
    List (Str × Str) → List Object → Option (List Object)
  | [], items => some items
  | k :: ks, items =>
      match resolveKey items tl current_time k with
      | none => none
      | some items' => applyKeys tl current_time ks items'

/-- Rust `apply_animations` (`animator.rs` lines 171–243), as a pure
function from the input scene to the resolved scene (the source clones
the scene per frame and mutates the clone). `none` models a panic. -/
def apply_animations (scene : Scene) (tl : Timeline) (current_time : ℚ) :
    Option Scene :=
  (applyKeys tl current_time (animTargets tl) scene.items).map
    (fun items => { scene with items := items })

/-- Fixed frame rate (`animator.rs` line 10). -/
def FRAME_RATE : ℚ := 60

/-- Scene duration with the 2-second default (`animator.rs` lines 55–57). -/
def sceneDuration (s : Scene) : ℚ := s.duration.getD 2

/-- Frames per scene (`animator.rs` line 58): `ceil(seconds * 60)`. -/
def numFramesForScene (s : Scene) : ℕ := ⌈sceneDuration s * FRAME_RATE⌉₊

/-- Timestamp of frame `i` (`animator.rs` lines 64 and 80): `i / 60` s. -/
def frameTimestamp (i : ℕ) : ℚ := (i : ℚ) / FRAME_RATE

/-- The per-scene frame schedule: one timestamp per frame index. -/
def frameTimes (s : Scene) : List ℚ :=
  (List.range (numFramesForScene s)).map frameTimestamp

/-- The pairings the final catch-all arm of `lerp` handles: everything
but two Numbers, two Tuples or two Colors. -/
def lerpFallsThrough : Value → Value → Prop
  | .Number _, .Number _ => False
  | .Tuple _ _, .Tuple _ _ => False
  | .Color _, .Color _ => False
  | _, _ => True

instance : DecidablePred (fun vw : Value × Value => lerpFallsThrough vw.1 vw.2) := by
  rintro ⟨vs, ve⟩
  cases vs <;> cases ve <;> simp [lerpFallsThrough] <;> infer_instance

/-- Animation A of the chained-composition scenario: `[0s,1s] → 50`. -/
def animA : Animation :=
  { start := 0, «end» := some 1, target_object := "obj".toList,
    property := "x".toList, «to» := .Number 50, easing := none }

/-- Animation B of the chained-composition scenario: `[1s,2s] → 100`. -/
def animB : Animation :=
  { start := 1, «end» := some 2, target_object := "obj".toList,
    property := "x".toList, «to» := .Number 100, easing := none }

/-- One-object scene whose property `x` has Number base value `b`. -/
def sceneNum (b : ℚ) : Scene :=
  { name := "s".toList
    items := [{ type := "square".toList, name := "obj".toList,
                properties := [{ name := "x".toList, value := .Number b }] }]
    timeline := none, duration := none }

/-- The chained-composition timeline: A then B on the same pair. -/
def timelineAB : Timeline := { animations := [animA, animB] }

/-- A concrete two-property scene: object `obj` with `x` (Number 1) and
`y` (Number 2). -/
def sceneXY : Scene :=
  { name := "w".toList
    items := [{ type := "square".toList, name := "obj".toList,
                properties := [{ name := "x".toList, value := .Number 1 },
                               { name := "y".toList, value := .Number 2 }] }]
    timeline := none, duration := none }

/-- Instantaneous animation on `obj.x` at 0s. -/
def animInstX : Animation :=
  { start := 0, «end» := none, target_object := "obj".toList,
    property := "x".toList, «to» := .Number 9, easing := none }

/-- Ranged animation on `obj.x` over [5s,6s]. -/
def animFutureX : Animation :=
  { start := 5, «end» := some 6, target_object := "obj".toList,
    property := "x".toList, «to» := .Number 9, easing := none }

/-- An animation targeting an object name absent from `sceneXY`. -/
def animGhost : Animation :=
  { start := 0, «end» := none, target_object := "ghost".toList,
    property := "x".toList, «to» := .Number 9, easing := none }

/-- A zero-duration ranged animation on `obj.x`: `end = start = 1s`. -/
def animZeroDur : Animation :=
  { start := 1, «end» := some 1, target_object := "obj".toList,
    property := "x".toList, «to» := .Number 9, easing := none }

/-- A 1.5-second scene with no objects. -/
def scene15 : Scene :=
  { name := "d".toList, items := [], timeline := none, duration := some (3/2) }

/-! ### General lemmas about the embedded operations -/

theorem lookupPropInProps_set_self (props : List Property) (p : Str) (v w : Value)
    (h : lookupPropInProps props p = some w) :
    lookupPropInProps (setPropInProps props p v) p = some v := by
  induction props with
  | nil => simp [lookupPropInProps] at h
  | cons pr rest ih =>
      by_cases hp : pr.name = p
      · simp [setPropInProps, lookupPropInProps, hp]
      · rw [lookupPropInProps, if_neg hp] at h
        simp only [setPropInProps, if_neg hp]
        rw [lookupPropInProps, if_neg hp]
        exact ih h

theorem lookupPropInProps_set_ne (props : List Property) (p q : Str) (v : Value)
    (hqp : q ≠ p) :
    lookupPropInProps (setPropInProps props q v) p = lookupPropInProps props p := by
  induction props with
  | nil => rfl
  | cons pr rest ih =>
      by_cases hq : pr.name = q
      · simp only [setPropInProps, if_pos hq]
        rw [lookupPropInProps, lookupPropInProps]
        simp only [hq]
        rw [if_neg hqp, if_neg hqp]
      · simp only [setPropInProps, if_neg hq]
        rw [lookupPropInProps, lookupPropInProps]
        by_cases hp : pr.name = p
        · rw [if_pos hp, if_pos hp]
        · rw [if_neg hp, if_neg hp]
          exact ih

theorem lookupPropInProps_set_none (props : List Property) (p q : Str) (v : Value)
    (h : lookupPropInProps props p = none) :
    lookupPropInProps (setPropInProps props q v) p = none := by
  by_cases hqp : q = p
  · subst hqp
    induction props with
    | nil => rfl
    | cons pr rest ih =>
        by_cases hp : pr.name = q
        · rw [lookupPropInProps, if_pos hp] at h
          exact absurd h (by simp)
        · rw [lookupPropInProps, if_neg hp] at h
          simp only [setPropInProps, if_neg hp]
          rw [lookupPropInProps, if_neg hp]
          exact ih h
  · rw [lookupPropInProps_set_ne props p q v hqp]
    exact h

theorem lookupProp_setProp_self (items : List Object) (o p : Str) (v w : Value)
    (h : lookupProp items o p = some w) :
    lookupProp (setProp items o p v) o p = some v := by
  induction items with
  | nil => simp [lookupProp] at h
  | cons obj rest ih =>
      by_cases ho : obj.name = o
      · simp only [setProp, if_pos ho]
        rw [lookupProp, if_pos ho] at h ⊢
        exact lookupPropInProps_set_self _ _ _ _ h
      · simp only [setProp, if_neg ho]
        rw [lookupProp, if_neg ho] at h ⊢
        exact ih h

theorem lookupProp_setProp_ne (items : List Object) (o p o2 p2 : Str) (v : Value)
    (hne : (o2, p2) ≠ (o, p)) :
    lookupProp (setProp items o2 p2 v) o p = lookupProp items o p := by
  induction items with
  | nil => rfl
  | cons obj rest ih =>
      by_cases h2 : obj.name = o2
      · simp only [setProp, if_pos h2]
        rw [lookupProp, lookupProp]
        simp only [h2]
        by_cases ho : o2 = o
        · subst ho
          rw [if_pos rfl, if_pos rfl]
          have hp2 : p2 ≠ p := by
            intro hp
            exact hne (by rw [hp])
          exact lookupPropInProps_set_ne _ _ _ _ hp2
        · rw [if_neg ho, if_neg ho]
      · simp only [setProp, if_neg h2]
        rw [lookupProp, lookupProp]
        by_cases ho : obj.name = o
        · rw [if_pos ho, if_pos ho]
        · rw [if_neg ho, if_neg ho]
          exact ih

theorem lookupProp_setProp_none (items : List Object) (o p o2 p2 : Str) (v : Value)
    (h : lookupProp items o p = none) :
    lookupProp (setProp items o2 p2 v) o p = none := by
  by_cases hk : (o2, p2) = (o, p)
  · injection hk with ho hp
    subst ho; subst hp
    induction items with
    | nil => rfl
    | cons obj rest ih =>
        by_cases ho : obj.name = o2
        · simp only [setProp, if_pos ho]
          rw [lookupProp, if_pos ho] at h ⊢
          exact lookupPropInProps_set_none _ _ _ _ h
        · simp only [setProp, if_neg ho]
          rw [lookupProp, if_neg ho] at h ⊢
          exact ih h
  · rw [lookupProp_setProp_ne items o p o2 p2 v hk]
    exact h

theorem walkAnims_cons_future {ct : ℚ} {v : Value} {a : Animation}
    {rest : List Animation} (h : ct < a.start) :
    walkAnims ct v (a :: rest) = some v := by
  rw [walkAnims, if_neg (not_le.2 h)]

theorem walkAnims_cons_instant {ct : ℚ} {v : Value} {a : Animation}
    {rest : List Animation} (hs : a.start ≤ ct) (he : a.«end» = none) :
    walkAnims ct v (a :: rest) = walkAnims ct a.«to» rest := by
  obtain ⟨ast, aend, atgt, aprop, ato, aeas⟩ := a
  simp only at hs he
  subst he
  simp only [walkAnims, if_pos hs]

theorem walkAnims_cons_finished {ct : ℚ} {v : Value} {a : Animation}
    {rest : List Animation} {e : ℚ} (hs : a.start ≤ ct) (he : a.«end» = some e)
    (hd : e ≤ ct) :
    walkAnims ct v (a :: rest) = walkAnims ct a.«to» rest := by
  obtain ⟨ast, aend, atgt, aprop, ato, aeas⟩ := a
  simp only at hs he
  subst he
  simp only [walkAnims, if_pos hs, if_neg (not_lt.2 hd)]

theorem walkAnims_cons_active {ct : ℚ} {v : Value} {a : Animation}
    {rest : List Animation} {e : ℚ} (hs : a.start ≤ ct) (he : a.«end» = some e)
    (hact : ct < e) :
    walkAnims ct v (a :: rest) =
      lerp v a.«to» (easedFactor ct a.start e a.easing) := by
  obtain ⟨ast, aend, atgt, aprop, ato, aeas⟩ := a
  simp only at hs he
  subst he
  simp only [walkAnims, if_pos hs, if_pos hact]

theorem walkAnims_future (current_time : ℚ) (v : Value) (l : List Animation)
    (h : ∀ x ∈ l, current_time < x.start) :
    walkAnims current_time v l = some v := by
  cases l with
  | nil => rfl
  | cons a rest =>
      have ha := h a (List.mem_cons_self a rest)
      rw [walkAnims, if_neg (not_le.2 ha)]

theorem mem_insertByStart {x a : Animation} {l : List Animation} :
    x ∈ insertByStart a l ↔ x = a ∨ x ∈ l := by
  induction l with
  | nil => simp [insertByStart]
  | cons b rest ih =>
      rw [insertByStart]
      by_cases hb : b.start < a.start
      · rw [if_pos hb]
        simp only [List.mem_cons, ih]
        tauto
      · rw [if_neg hb]
        simp [List.mem_cons]

theorem mem_sortByStart {x : Animation} {l : List Animation} :
    x ∈ sortByStart l ↔ x ∈ l := by
  induction l with
  | nil => simp [sortByStart]
  | cons a rest ih =>
      show x ∈ insertByStart a (sortByStart rest) ↔ _
      rw [mem_insertByStart, ih]
      simp [List.mem_cons]

theorem mem_dedupKeys {x : Str × Str} {l : List (Str × Str)} :
    x ∈ dedupKeys l ↔ x ∈ l := by
  induction l with
  | nil => simp [dedupKeys]
  | cons k rest ih =>
      rw [dedupKeys]
      by_cases hk : k ∈ dedupKeys rest
      · simp only [hk, if_true, List.mem_cons, ih]
        constructor
        · exact Or.inr
        · rintro (rfl | hx)
          · exact ih.1 hk
          · exact hx
      · simp only [hk, if_false, List.mem_cons, ih]

theorem resolveKey_eq_some {items items' : List Object} {tl : Timeline}
    {ct : ℚ} {k : Str × Str} (h : resolveKey items tl ct k = some items') :
    ∃ initial w, lookupProp items k.1 k.2 = some initial ∧
      walkAnims ct initial (relevantAnims tl k) = some w ∧
      items' = setProp items k.1 k.2 w := by
  unfold resolveKey at h
  cases hl : lookupProp items k.1 k.2 with
  | none => rw [hl] at h; exact absurd h (by simp)
  | some initial =>
      rw [hl] at h
      rcases Option.map_eq_some'.1 h with ⟨w, hw, hitems⟩
      exact ⟨initial, w, rfl, hw, hitems.symm⟩

theorem apply_animations_single_key (scene : Scene) (tl : Timeline) (ct : ℚ)
    (o p : Str) (v w : Value) (hkeys : animTargets tl = [(o, p)])
    (hv : lookupProp scene.items o p = some v)
    (hw : walkAnims ct v (relevantAnims tl (o, p)) = some w) :
    apply_animations scene tl ct =
      some { scene with items := setProp scene.items o p w } := by
  have hres : resolveKey scene.items tl ct (o, p) =
      some (setProp scene.items o p w) := by
    rw [resolveKey]
    simp only [hv, hw, Option.map_some']
  rw [apply_animations, hkeys]
  simp only [applyKeys, hres, Option.map_some']

theorem applyKeys_lookup_of_future {tl : Timeline} {ct : ℚ} {o p : Str}
    (hfut : ∀ x ∈ tl.animations,
      x.target_object = o → x.property = p → ct < x.start) :
    ∀ keys items items', applyKeys tl ct keys items = some items' →
      lookupProp items' o p = lookupProp items o p := by
  intro keys
  induction keys with
  | nil =>
      intro items items' h
      rw [applyKeys] at h
      obtain rfl : items = items' := by injection h
      rfl
  | cons k ks ih =>
      intro items items' h
      rw [applyKeys] at h
      cases hr : resolveKey items tl ct k with
      | none => rw [hr] at h; exact absurd h (by simp)
      | some mid =>
          rw [hr] at h
          have hmid : lookupProp mid o p = lookupProp items o p := by
            rcases resolveKey_eq_some hr with ⟨initial, w, hl, hw, hm⟩
            subst hm
            by_cases hk : k = (o, p)
            · subst hk
              have hall : ∀ x ∈ relevantAnims tl (o, p), ct < x.start := by
                intro x hx
                have hx2 := List.mem_filter.1 (mem_sortByStart.1 (by
                  rw [relevantAnims] at hx; exact hx))
                have hx3 := of_decide_eq_true hx2.2
                exact hfut x hx2.1 hx3.1 hx3.2
              rw [walkAnims_future _ _ _ hall] at hw
              obtain rfl : initial = w := by injection hw
              rw [lookupProp_setProp_self _ _ _ _ _ hl]
              exact hl.symm
            · exact lookupProp_setProp_ne _ _ _ _ _ _ hk
          rw [ih mid items' h, hmid]

theorem applyKeys_none {tl : Timeline} {ct : ℚ} {o p : Str} :
    ∀ keys items, (o, p) ∈ keys → lookupProp items o p = none →
      applyKeys tl ct keys items = none := by
  intro keys
  induction keys with
  | nil => intro items hmem _; simp at hmem
  | cons k ks ih =>
      intro items hmem hnone
      rw [applyKeys]
      cases hr : resolveKey items tl ct k with
      | none => rfl
      | some mid =>
          rcases resolveKey_eq_some hr with ⟨initial, w, hl, hw, hm⟩
          have hk : k ≠ (o, p) := by
            rintro rfl
            rw [hl] at hnone
            exact absurd hnone (by simp)
          have hmem2 : (o, p) ∈ ks := by
            rcases List.mem_cons.1 hmem with h1 | h1
            · exact absurd h1.symm hk
            · exact h1
          subst hm
          exact ih _ hmem2 (lookupProp_setProp_none _ _ _ _ _ _ hnone)

/-! ### Single-byte (ASCII-range) strings -/

theorem byteLen_of_single : ∀ s : Str, (∀ c ∈ s, utf8Size c = 1) →
    byteLen s = s.length
  | [], _ => rfl
  | c :: rest, h => by
      have hc := h c (List.mem_cons_self c rest)
      have hr := byteLen_of_single rest
        (fun x hx => h x (List.mem_cons.2 (Or.inr hx)))
      simp only [byteLen, List.map_cons, List.sum_cons, List.length_cons] at hr ⊢
      rw [hc, hr]
      omega

theorem dropBytes_single (s : Str) : ∀ n : Nat, (∀ c ∈ s, utf8Size c = 1) →
    n ≤ s.length → dropBytes s n = some (s.drop n) := by
  induction s with
  | nil =>
      intro n _ hn
      obtain rfl := Nat.le_zero.1 hn
      rfl
  | cons c rest ih =>
      intro n h hn
      cases n with
      | zero => rfl
      | succ m =>
          have hc := h c (List.mem_cons_self c rest)
          rw [dropBytes, if_pos (by omega), hc]
          rw [List.length_cons] at hn
          rw [Nat.succ_sub_one]
          rw [ih m (fun x hx => h x (List.mem_cons.2 (Or.inr hx))) (by omega)]
          rw [List.drop_succ_cons]

theorem takeBytes_single (s : Str) : ∀ n : Nat, (∀ c ∈ s, utf8Size c = 1) →
    n ≤ s.length → takeBytes s n = some (s.take n) := by
  induction s with
  | nil =>
      intro n _ hn
      obtain rfl := Nat.le_zero.1 hn
      rfl
  | cons c rest ih =>
      intro n h hn
      cases n with
      | zero => rfl
      | succ m =>
          have hc := h c (List.mem_cons_self c rest)
          rw [takeBytes, if_pos (by omega), hc]
          rw [List.length_cons] at hn
          rw [Nat.succ_sub_one]
          rw [ih m (fun x hx => h x (List.mem_cons.2 (Or.inr hx))) (by omega)]
          rw [Option.map_some', List.take_succ_cons]

theorem sliceBytes_single (s : Str) (a b : Nat)
    (h : ∀ c ∈ s, utf8Size c = 1) (hab : a ≤ b) (hb : b ≤ s.length) :
    sliceBytes s a b = some ((s.drop a).take (b - a)) := by
  rw [sliceBytes, if_pos hab, dropBytes_single s a h (le_trans hab hb),
    Option.some_bind]
  exact takeBytes_single (s.drop a) (b - a)
    (fun x hx => h x (List.drop_subset _ _ hx))
    (by rw [List.length_drop]; omega)

theorem hexDigitsVal_le (s : Str) : ∀ acc v : Nat, acc ≤ 255 →
    hexDigitsVal s acc = some v → v ≤ 255 := by
  induction s with
  | nil =>
      intro acc v ha h
      rw [hexDigitsVal] at h
      obtain rfl : acc = v := by injection h
      exact ha
  | cons c rest ih =>
      intro acc v ha h
      rw [hexDigitsVal] at h
      cases hd : hexDigitVal c with
      | none => rw [hd] at h; exact absurd h (by simp)
      | some d =>
          simp only [hd] at h
          by_cases hle : acc * 16 + d ≤ 255
          · rw [if_pos hle] at h
            exact ih _ _ hle h
          · rw [if_neg hle] at h
            exact absurd h (by simp)

theorem fromStrRadix16U8_le (g : Str) (v : Nat)
    (h : fromStrRadix16U8 g = some v) : v ≤ 255 := by
  cases g with
  | nil => exact absurd h (by simp [fromStrRadix16U8])
  | cons c rest =>
      rw [fromStrRadix16U8] at h
      by_cases hc : c = '+'
      · rw [if_pos hc] at h
        by_cases hr : rest = []
        · rw [if_pos hr] at h
          exact absurd h (by simp)
        · rw [if_neg hr] at h
          exact hexDigitsVal_le rest 0 v (by omega) h
      · rw [if_neg hc] at h
        exact hexDigitsVal_le (c :: rest) 0 v (by omega) h

theorem fromStrRadix16U8_getD_le (g : Str) :
    (fromStrRadix16U8 g).getD 0 ≤ 255 := by
  cases h : fromStrRadix16U8 g with
  | none => simp
  | some w => simpa using fromStrRadix16U8_le g w h

/-- On a single-byte string, `hex_to_rgb` never panics: character
positions and byte positions coincide, so the three 2-byte slices are the
three 2-character groups. -/
theorem hex_to_rgb_single (s : Str) (hs : ∀ c ∈ s, utf8Size c = 1) :
    hex_to_rgb s =
      if (s.dropWhile (fun c => c == '#')).length = 6 then
        some ((fromStrRadix16U8 ((s.dropWhile (fun c => c == '#')).take 2)).getD 0,
          (fromStrRadix16U8
            (((s.dropWhile (fun c => c == '#')).drop 2).take 2)).getD 0,
          (fromStrRadix16U8
            (((s.dropWhile (fun c => c == '#')).drop 4).take 2)).getD 0)
      else some (0, 0, 0) := by
  have hbody : ∀ c ∈ s.dropWhile (fun c => c == '#'), utf8Size c = 1 :=
    fun c hc => hs c ((List.dropWhile_sublist _).subset hc)
  rw [hex_to_rgb, hexBody_to_rgb, byteLen_of_single _ hbody]
  by_cases h6 : (s.dropWhile (fun c => c == '#')).length = 6
  · rw [if_pos h6, if_pos h6]
    rw [sliceBytes_single _ 0 2 hbody (by omega) (by omega),
      sliceBytes_single _ 2 4 hbody (by omega) (by omega),
      sliceBytes_single _ 4 6 hbody (by omega) (by omega)]
    simp
  · rw [if_neg h6, if_neg h6]

/-! ### Claim theorems -/

/-- C1: with two sequential non-overlapping ranged animations A:[0s,1s]→50
and B:[1s,2s]→100 on a property with any Number base value, resolution at
1.5s yields Number 75: the finished A updates the running base value to
50, the active B interpolates from that chained value and is final — any
further animations after B in the sorted list are never applied. -/
theorem C1_chained_composition (b : ℚ) (rest : List Animation) :
    walkAnims (3/2) (.Number b) (animA :: animB :: rest) = some (.Number 75) ∧
    apply_animations (sceneNum b) timelineAB (3/2) = some (sceneNum 75) := by
  have hwalk : ∀ (v0 : Value) (tail : List Animation),
      walkAnims (3/2) v0 (animA :: animB :: tail) = some (.Number 75) := by
    intro v0 tail
    rw [walkAnims_cons_finished (a := animA) (e := 1)
      (by norm_num [animA]) rfl (by norm_num)]
    rw [walkAnims_cons_active (a := animB) (e := 2)
      (by norm_num [animB]) rfl (by norm_num)]
    norm_num [animA, animB, easedFactor, interpFactor, lerp, apply_easing]
  refine ⟨hwalk _ rest, ?_⟩
  have hkeys : animTargets timelineAB = [("obj".toList, "x".toList)] := by decide
  have hrel : relevantAnims timelineAB ("obj".toList, "x".toList) =
      [animA, animB] := by decide
  have happ := apply_animations_single_key (sceneNum b) timelineAB (3/2)
    "obj".toList "x".toList (.Number b) (.Number 75) hkeys rfl
    (by rw [hrel]; exact hwalk (.Number b) [])
  rw [happ]
  rfl

/-- C2: for every scene and every instantaneous animation (`end = none`)
with start time T on an existing (object, property) pair, resolution at
`at` succeeds and yields exactly the declared base value when `at < T`
and exactly the animation's `to` value when `at ≥ T`; a start time equal
to `at` counts as already started. -/
theorem C2_instantaneous_snap (scene : Scene) (a : Animation)
    (current_time : ℚ) (v : Value) (he : a.«end» = none)
    (hv : lookupProp scene.items a.target_object a.property = some v) :
    ∃ s2, apply_animations scene ⟨[a]⟩ current_time = some s2 ∧
      lookupProp s2.items a.target_object a.property =
        some (if current_time < a.start then v else a.«to») := by
  have hkeys : animTargets ⟨[a]⟩ = [(a.target_object, a.property)] := by
    simp [animTargets, dedupKeys]
  have hrel : relevantAnims ⟨[a]⟩ (a.target_object, a.property) = [a] := by
    simp [relevantAnims, sortByStart, insertByStart, List.filter_cons]
  have hw : walkAnims current_time v [a] =
      some (if current_time < a.start then v else a.«to») := by
    by_cases hlt : current_time < a.start
    · rw [walkAnims_cons_future hlt, if_pos hlt]
    · rw [walkAnims_cons_instant (not_lt.1 hlt) he, walkAnims, if_neg hlt]
  refine ⟨_, apply_animations_single_key scene ⟨[a]⟩ current_time
    a.target_object a.property v _ hkeys hv (by rw [hrel]; exact hw), ?_⟩
  exact lookupProp_setProp_self _ _ _ _ _ hv

/-- C2 witness: the instantaneous animation `animInstX` (start 0s) on the
existing pair `obj.x` of `sceneXY`, resolved at 1s. -/
theorem C2_witness :
    animInstX.«end» = none ∧
    lookupProp sceneXY.items animInstX.target_object animInstX.property =
      some (.Number 1) ∧
    ∃ s2, apply_animations sceneXY ⟨[animInstX]⟩ 1 = some s2 ∧
      lookupProp s2.items animInstX.target_object animInstX.property =
        some (if (1 : ℚ) < animInstX.start then .Number 1 else animInstX.«to») :=
  ⟨rfl, rfl, C2_instantaneous_snap sceneXY animInstX 1 (.Number 1) rfl rfl⟩

/-- C3: resolution leaves everything else unchanged — whenever resolution
succeeds, a property not targeted by any animation of the timeline keeps
its declared base value, and a targeted property all of whose animations
start strictly after the query time keeps its declared base value. (The
third part of the claim, that the input scene value is not mutated, holds
by construction: the source clones the scene per frame and the embedding
is a pure function from the input scene to a new scene.) -/
theorem C3_resolution_invariance (scene : Scene) (tl : Timeline)
    (current_time : ℚ) (s2 : Scene)
    (h : apply_animations scene tl current_time = some s2) :
    (∀ o p, (∀ x ∈ tl.animations,
        ¬(x.target_object = o ∧ x.property = p)) →
      lookupProp s2.items o p = lookupProp scene.items o p) ∧
    (∀ o p, (∀ x ∈ tl.animations,
        x.target_object = o ∧ x.property = p → current_time < x.start) →
      lookupProp s2.items o p = lookupProp scene.items o p) := by
  rw [apply_animations] at h
  rcases Option.map_eq_some'.1 h with ⟨items2, happ, hs2⟩
  have key : ∀ o p, (∀ x ∈ tl.animations,
      x.target_object = o → x.property = p → current_time < x.start) →
      lookupProp s2.items o p = lookupProp scene.items o p := by
    intro o p hfut
    rw [← hs2]
    exact applyKeys_lookup_of_future hfut _ _ _ happ
  constructor
  · intro o p hnone
    exact key o p (fun x hx h1 h2 => absurd ⟨h1, h2⟩ (hnone x hx))
  · intro o p hfut
    exact key o p (fun x hx h1 h2 => hfut x hx ⟨h1, h2⟩)

/-- C3 witness: `sceneXY` with a single ranged animation starting at 5s,
resolved at 0s — resolution succeeds and the base value of `obj.x` is
preserved. -/
theorem C3_witness :
    apply_animations sceneXY ⟨[animFutureX]⟩ 0 = some sceneXY ∧
    lookupProp sceneXY.items "obj".toList "x".toList =
      lookupProp sceneXY.items "obj".toList "x".toList :=
  ⟨by decide,
   (C3_resolution_invariance sceneXY ⟨[animFutureX]⟩ 0 sceneXY (by decide)).2
     "obj".toList "x".toList (by decide)⟩

/-- C4: if some animation of the timeline targets an (object, property)
pair with no matching object or property in the scene, resolution fails
(the `expect` panic, a fatal configuration error) at every timestamp; the
pair is never given a default base value. -/
theorem C4_missing_target_fails (scene : Scene) (tl : Timeline)
    (current_time : ℚ) (a : Animation) (ha : a ∈ tl.animations)
    (hmiss : lookupProp scene.items a.target_object a.property = none) :
    apply_animations scene tl current_time = none := by
  rw [apply_animations]
  rw [applyKeys_none (animTargets tl) scene.items ?_ hmiss]
  · rfl
  · rw [animTargets, mem_dedupKeys]
    exact List.mem_map.2 ⟨a, ha, rfl⟩

/-- C4 witness: `animGhost` targets object `ghost`, absent from
`sceneXY`; resolution at 0s fails. -/
theorem C4_witness :
    animGhost ∈ (⟨[animGhost]⟩ : Timeline).animations ∧
    lookupProp sceneXY.items animGhost.target_object animGhost.property =
      none ∧
    apply_animations sceneXY ⟨[animGhost]⟩ 0 = none :=
  ⟨List.mem_cons_self _ _, rfl,
   C4_missing_target_fails sceneXY ⟨[animGhost]⟩ 0 animGhost
     (List.mem_cons_self _ _) rfl⟩

/-- C5: the frame count of a scene is `ceil(seconds * 60)` of its
duration, with 2 seconds as the default when no duration is declared;
frame `i` (0-indexed) carries timestamp `i / 60` seconds; a 1.5-second
scene yields 90 frames. -/
theorem C5_frame_schedule (s : Scene) (i : ℕ) (hi : i < numFramesForScene s) :
    (frameTimes s).length = ⌈s.duration.getD 2 * 60⌉₊ ∧
    (frameTimes s)[i]? = some ((i : ℚ) / 60) ∧
    numFramesForScene scene15 = 90 ∧
    numFramesForScene { s with duration := none } = 120 := by
  refine ⟨?_, ?_, ?_, ?_⟩
  · simp [frameTimes, numFramesForScene, sceneDuration, FRAME_RATE]
  · simp [frameTimes, frameTimestamp, FRAME_RATE, List.getElem?_map,
      List.getElem?_range, hi]
  · norm_num [scene15, numFramesForScene, sceneDuration, FRAME_RATE]
  · norm_num [numFramesForScene, sceneDuration, FRAME_RATE]

/-- C5 witness: the 1.5-second scene at frame index 30 (timestamp 0.5s;
90 frames in total). -/
theorem C5_witness :
    30 < numFramesForScene scene15 ∧
    ((frameTimes scene15).length = ⌈scene15.duration.getD 2 * 60⌉₊ ∧
     (frameTimes scene15)[30]? = some ((30 : ℚ) / 60) ∧
     numFramesForScene scene15 = 90 ∧
     numFramesForScene { scene15 with duration := none } = 120) :=
  ⟨by norm_num [scene15, numFramesForScene, sceneDuration, FRAME_RATE],
   C5_frame_schedule scene15 30
     (by norm_num [scene15, numFramesForScene, sceneDuration, FRAME_RATE])⟩

/-- C6: `lerp` on two Color values decodes both hex strings to 8-bit RGB,
interpolates each channel linearly, truncates each channel back to `u8`,
and re-encodes as a lowercase `#rrggbb` string; in particular
`lerp(Color(#000000), Color(#ffffff), 0.5) = Color(#7f7f7f)`
(truncation, not rounding). -/
theorem C6_color_lerp (a b : Str) (factor : ℚ) (sr sg sb er eg eb : ℕ)
    (ha : hex_to_rgb a = some (sr, sg, sb))
    (hb : hex_to_rgb b = some (er, eg, eb)) :
    lerp (.Color a) (.Color b) factor =
      some (.Color ('#' ::
        (byteToHex (f64ToU8 ((sr : ℚ) + ((er : ℚ) - (sr : ℚ)) * factor)) ++
         byteToHex (f64ToU8 ((sg : ℚ) + ((eg : ℚ) - (sg : ℚ)) * factor)) ++
         byteToHex (f64ToU8 ((sb : ℚ) + ((eb : ℚ) - (sb : ℚ)) * factor))))) ∧
    lerp (.Color "#000000".toList) (.Color "#ffffff".toList) (1/2) =
      some (.Color "#7f7f7f".toList) := by
  constructor
  · rw [lerp]
    simp only [ha, hb]
  · have h0 : hex_to_rgb "#000000".toList = some (0, 0, 0) := by decide
    have h1 : hex_to_rgb "#ffffff".toList = some (255, 255, 255) := by decide
    rw [lerp]
    simp only [h0, h1]
    norm_num [f64ToU8, byteToHex, hexChar]
    decide

/-- C6 witness: the black-to-white midpoint. -/
theorem C6_witness :
    hex_to_rgb "#000000".toList = some (0, 0, 0) ∧
    hex_to_rgb "#ffffff".toList = some (255, 255, 255) ∧
    lerp (.Color "#000000".toList) (.Color "#ffffff".toList) (1/2) =
      some (.Color "#7f7f7f".toList) :=
  ⟨by decide, by decide,
   (C6_color_lerp "#000000".toList "#ffffff".toList (1/2) 0 0 0 255 255 255
     (by decide) (by decide)).2⟩

/-- C7: `apply_easing` computes `ease_in` as `t*t`, `ease_out` as
`t*(2-t)`, `ease_in_out` as `2t²` below one half and `-1+(4-2t)t`
otherwise, and returns `t` unchanged for any unrecognized name; each
named easing maps 0 to 0 and 1 to 1 exactly, and the midpoint values are
`ease_in(0.5) = 0.25`, `ease_out(0.5) = 0.75`, `ease_in_out(0.5) = 0.5`. -/
theorem C7_easing_table (t : ℚ) :
    apply_easing t "ease_in".toList = t * t ∧
    apply_easing t "ease_out".toList = t * (2 - t) ∧
    apply_easing t "ease_in_out".toList =
      (if t < 1/2 then 2 * t * t else -1 + (4 - 2 * t) * t) ∧
    (∀ s : Str, s ≠ "ease_in".toList → s ≠ "ease_out".toList →
      s ≠ "ease_in_out".toList → apply_easing t s = t) ∧
    apply_easing 0 "ease_in".toList = 0 ∧
    apply_easing 1 "ease_in".toList = 1 ∧
    apply_easing 0 "ease_out".toList = 0 ∧
    apply_easing 1 "ease_out".toList = 1 ∧
    apply_easing 0 "ease_in_out".toList = 0 ∧
    apply_easing 1 "ease_in_out".toList = 1 ∧
    apply_easing (1/2) "ease_in".toList = 1/4 ∧
    apply_easing (1/2) "ease_out".toList = 3/4 ∧
    apply_easing (1/2) "ease_in_out".toList = 1/2 := by
  have hin : ∀ u : ℚ, apply_easing u "ease_in".toList = u * u := fun u => by
    simp [apply_easing]
  have hout : ∀ u : ℚ, apply_easing u "ease_out".toList = u * (2 - u) :=
    fun u => by simp [apply_easing]
  have hio : ∀ u : ℚ, apply_easing u "ease_in_out".toList =
      (if u < 1/2 then 2 * u * u else -1 + (4 - 2 * u) * u) :=
    fun u => by simp [apply_easing]
  refine ⟨hin t, hout t, hio t, ?_, ?_, ?_, ?_, ?_, ?_, ?_, ?_, ?_, ?_⟩
  · intro s h1 h2 h3
    rw [apply_easing, if_neg h1, if_neg h2, if_neg h3]
  · rw [hin]; norm_num
  · rw [hin]; norm_num
  · rw [hout]; norm_num
  · rw [hout]; norm_num
  · rw [hio]; norm_num
  · rw [hio]; norm_num
  · rw [hin]; norm_num
  · rw [hout]; norm_num
  · rw [hio]; norm_num

/-- C7 witness: the unrecognized easing name `z` is linear. -/
theorem C7_witness :
    ((['z'] : Str) ≠ "ease_in".toList ∧ (['z'] : Str) ≠ "ease_out".toList ∧
     (['z'] : Str) ≠ "ease_in_out".toList) ∧
    apply_easing (1/3) ['z'] = 1/3 :=
  ⟨⟨by decide, by decide, by decide⟩,
   (C7_easing_table (1/3)).2.2.2.1 ['z'] (by decide) (by decide) (by decide)⟩

/-- C8: `lerp` of two Numbers is `start + (end - start) * factor`, of two
Tuples is the same formula component-wise, and of any other pairing
(including two Strings) is the end value unchanged, without error; in
particular `lerp(String("a"), String("b"), 0.5) = String("b")`. -/
theorem C8_lerp_table (factor : ℚ) :
    (∀ s e : ℚ, lerp (.Number s) (.Number e) factor =
      some (.Number (s + (e - s) * factor))) ∧
    (∀ sx sy ex ey : ℚ, lerp (.Tuple sx sy) (.Tuple ex ey) factor =
      some (.Tuple (sx + (ex - sx) * factor) (sy + (ey - sy) * factor))) ∧
    (∀ vs ve : Value, lerpFallsThrough vs ve → lerp vs ve factor = some ve) ∧
    lerp (.String "a".toList) (.String "b".toList) (1/2) =
      some (.String "b".toList) := by
  refine ⟨fun s e => rfl, fun sx sy ex ey => rfl, ?_, rfl⟩
  intro vs ve h
  cases vs <;> cases ve <;> first | rfl | simp [lerpFallsThrough] at h

/-- C8 witness: a mismatched Number/String pairing falls through to the
end value. -/
theorem C8_witness :
    lerpFallsThrough (.Number 1) (.String ['b']) ∧
    lerp (.Number 1) (.String ['b']) (1/2) = some (.String ['b']) :=
  ⟨trivial, (C8_lerp_table (1/2)).2.2.1 _ _ trivial⟩

/-- C9: the interpolation factor of an active ranged animation is
`(at - start) / (end - start)` whenever the range is ahead of `at`, and
is defined as 1 when `end = start`, so resolution never divides by zero;
a zero-duration ranged animation that has started is treated as finished
and contributes exactly its `to` value as the chained value for the rest
of the walk. -/
theorem C9_zero_duration (current_time s : ℚ) (v : Value) (a : Animation)
    (rest : List Animation) (hz : a.«end» = some a.start)
    (hs : a.start ≤ current_time) :
    interpFactor current_time s s = 1 ∧
    (∀ e : ℚ, s ≤ current_time → current_time < e →
      interpFactor current_time s e = (current_time - s) / (e - s)) ∧
    walkAnims current_time v (a :: rest) =
      walkAnims current_time a.«to» rest := by
  refine ⟨?_, ?_, walkAnims_cons_finished hs hz hs⟩
  · rw [interpFactor, if_neg (by simp)]
  · intro e h1 h2
    rw [interpFactor, if_pos (sub_pos.2 (lt_of_le_of_lt h1 h2))]

/-- C9 witness: the zero-duration animation `animZeroDur`
(`end = start = 1s`) at time 2s, walking from Number base 0; the walk on
the singleton list yields exactly its `to` value. -/
theorem C9_witness :
    animZeroDur.«end» = some animZeroDur.start ∧
    animZeroDur.start ≤ (2 : ℚ) ∧
    (interpFactor 2 0 0 = 1 ∧
     (∀ e : ℚ, (0 : ℚ) ≤ 2 → (2 : ℚ) < e →
       interpFactor 2 0 e = ((2 : ℚ) - 0) / (e - 0)) ∧
     walkAnims 2 (.Number 0) [animZeroDur] =
       walkAnims 2 animZeroDur.«to» []) :=
  ⟨rfl, by decide,
   C9_zero_duration 2 0 (.Number 0) animZeroDur [] rfl (by decide)⟩

/-- C10 counterexample: `hex_to_rgb` is not total for every string. The
body `a€aa` is 6 bytes long (`€` is 3 bytes in UTF-8), so the length
check passes, but the slice `&hex[0..2]` cuts `€` off a character
boundary and the program panics; `lerp` on such a Color fails too. -/
theorem C10_counterexample :
    hex_to_rgb ['a', '€', 'a', 'a'] = none ∧
    lerp (.Color ['a', '€', 'a', 'a']) (.Color "#000000".toList) (1/2) =
      none := by
  constructor
  · decide
  · rw [lerp]
    have h : hex_to_rgb ['a', '€', 'a', 'a'] = none := by decide
    simp only [h]

/-- C10 amended: for every string of single-byte (ASCII-range)
characters, `hex_to_rgb` returns a valid `[u8; 3]` — a body (after
stripping leading `#`) that is not exactly 6 characters decodes to
`[0, 0, 0]`, and on a 6-character body each 2-character group parses as
hexadecimal with fallback 0 — and `lerp` on Color values with such
strings never fails. (For strings with multi-byte characters the byte
slicing can panic, as the counterexample shows.) -/
theorem C10_ascii_total (s : Str) (hs : ∀ c ∈ s, utf8Size c = 1) :
    (∃ r g b, hex_to_rgb s = some (r, g, b) ∧
      r ≤ 255 ∧ g ≤ 255 ∧ b ≤ 255) ∧
    ((s.dropWhile (fun c => c == '#')).length ≠ 6 →
      hex_to_rgb s = some (0, 0, 0)) ∧
    ((s.dropWhile (fun c => c == '#')).length = 6 →
      hex_to_rgb s = some
        ((fromStrRadix16U8 ((s.dropWhile (fun c => c == '#')).take 2)).getD 0,
         (fromStrRadix16U8
           (((s.dropWhile (fun c => c == '#')).drop 2).take 2)).getD 0,
         (fromStrRadix16U8
           (((s.dropWhile (fun c => c == '#')).drop 4).take 2)).getD 0)) ∧
    (∀ t : Str, ∀ factor : ℚ, (∀ c ∈ t, utf8Size c = 1) →
      ∃ v, lerp (.Color s) (.Color t) factor = some v) := by
  have htotal : ∀ u : Str, (∀ c ∈ u, utf8Size c = 1) →
      ∃ r g b, hex_to_rgb u = some (r, g, b) ∧
        r ≤ 255 ∧ g ≤ 255 ∧ b ≤ 255 := by
    intro u hu
    rw [hex_to_rgb_single u hu]
    by_cases h6 : (u.dropWhile (fun c => c == '#')).length = 6
    · rw [if_pos h6]
      exact ⟨_, _, _, rfl, fromStrRadix16U8_getD_le _,
        fromStrRadix16U8_getD_le _, fromStrRadix16U8_getD_le _⟩
    · rw [if_neg h6]
      exact ⟨0, 0, 0, rfl, by omega, by omega, by omega⟩
  refine ⟨htotal s hs, ?_, ?_, ?_⟩
  · intro h6
    rw [hex_to_rgb_single s hs, if_neg h6]
  · intro h6
    rw [hex_to_rgb_single s hs, if_pos h6]
  · intro t factor ht
    rcases htotal s hs with ⟨sr, sg, sb, hsr, _⟩
    rcases htotal t ht with ⟨tr, tg, tb, htr, _⟩
    rw [lerp]
    simp only [hsr, htr]
    exact ⟨_, rfl⟩

/-- C10 witness: the ASCII string `#123456`. -/
theorem C10_witness :
    (∀ c ∈ ("#123456".toList : Str), utf8Size c = 1) ∧
    ((∃ r g b, hex_to_rgb "#123456".toList = some (r, g, b) ∧
       r ≤ 255 ∧ g ≤ 255 ∧ b ≤ 255) ∧
     ((("#123456".toList : Str).dropWhile (fun c => c == '#')).length ≠ 6 →
       hex_to_rgb "#123456".toList = some (0, 0, 0)) ∧
     ((("#123456".toList : Str).dropWhile (fun c => c == '#')).length = 6 →
       hex_to_rgb "#123456".toList = some
         ((fromStrRadix16U8
           ((("#123456".toList : Str).dropWhile (fun c => c == '#')).take 2)).getD 0,
          (fromStrRadix16U8
            (((("#123456".toList : Str).dropWhile (fun c => c == '#')).drop 2).take 2)).getD 0,
          (fromStrRadix16U8
            (((("#123456".toList : Str).dropWhile (fun c => c == '#')).drop 4).take 2)).getD 0)) ∧
     (∀ t : Str, ∀ factor : ℚ, (∀ c ∈ t, utf8Size c = 1) →
       ∃ v, lerp (.Color "#123456".toList) (.Color t) factor = some v)) :=
  ⟨by decide, C10_ascii_total "#123456".toList (by decide)⟩

end Beam
